import Mathlib

/-
  Verification of the SLATE communication-avoiding LU driver (getrf_ca.cc)
  and the band solve driver (gbsv.cc) against their specification.

  Shallow embedding conventions:
  * A distributed tiled matrix is modelled per block-column, matching the
    block-column orientation of the driver: a value of type Mat maps a
    block-column index j to that block-column, and a block-column maps a
    local column index c and a global row index r to a scalar.
  * Scalars are rationals, the exact-arithmetic stand-in for the
    float and double element types of the source.
  * The driver getrf_ca (src/unnamed/part_000, namespace
    internal::specialization) is translated statement by statement.  Its
    OpenMP task pragmas are commented out in the source, so the driver is
    sequential; the embedding is the corresponding sequential function.
  * The compute kernels (internal::getrf_ca panel kernel, permuteRows,
    trsm, gemm) are external collaborators that are not under src/; each
    of their embeddings carries a doc comment starting with the words
    Modelled from the spec and follows the contracts in sections 4.1-4.5
    of the specification.
  * Communication, scheduling and workspace lifetime are modelled by an
    event-trace function getrfTrace that lists the driver calls in the
    order the sequential driver issues them, with the tag arguments of
    the source.  MPI_Bcast has no tag parameter, so the pivot broadcast
    event carries an Option Nat tag that is none.
-/

namespace Slate

/-- One block-column of a tiled matrix: local column index, then global
row index, to a scalar. -/
def ColB : Type := Nat → Nat → ℚ

/-- A tiled matrix, stored block-column by block-column. -/
def Mat : Type := Nat → ColB

/-- Tile-grid dimensions of the matrix A: mb k and nb k are the row and
column block sizes tileMb(k) and tileNb(k); mt and nt are the tile row
and column counts A.mt() and A.nt(). -/
structure Dims where
  mb : Nat → Nat
  nb : Nat → Nat
  mt : Nat
  nt : Nat

/-- Global row index at which tile row k starts. -/
def rowOff (d : Dims) : Nat → Nat
  | 0 => 0
  | k+1 => rowOff d k + d.mb k

/-- Total number of matrix rows. -/
def mrows (d : Dims) : Nat := rowOff d d.mt

/-- Replace block-column j of M by cb. -/
def updCol (M : Mat) (j : Nat) (cb : ColB) : Mat :=
  fun j' => if j' = j then cb else M j'

/-- Swap global rows r1 and r2 of a block-column. -/
def swapRows (r1 r2 : Nat) (col : ColB) : ColB := fun c r =>
  if r = r1 then col c r2 else if r = r2 then col c r1 else col c r

/-- Modelled from the spec: internal::permuteRows (Row Permutation
Applier, spec 4.3) on one block-column, Direction::Forward.  The pivot
record at position s swaps row base + s with row base + p, where p is
the recorded row offset inside the panel row range; swaps are applied in
increasing sequence order. -/
def applyPivotsFrom (base : Nat) : Nat → List Nat → ColB → ColB
  | _, [], col => col
  | s, p :: ps, col => applyPivotsFrom base (s+1) ps (swapRows (base + s) (base + p) col)

/-- Apply a whole pivot sequence to a block-column, in sequence order. -/
def applyPivots (piv : List Nat) (base : Nat) (col : ColB) : ColB :=
  applyPivotsFrom base 0 piv col

/-- Modelled from the spec: partial-pivot row selection (spec 4.1), first
maximal-magnitude element in column c among global rows lo..m-1, lowest
index on ties. -/
def argmaxRow (col : ColB) (c lo m : Nat) : Nat :=
  (List.range' lo (m - lo)).foldl
    (fun best r => if |col c best| < |col c r| then r else best) lo

/-- Modelled from the spec: one elimination step of the panel
factorization at diagonal position s (rows base+s+1..m-1, panel width w).
A zero diagonal pivot is recorded, not eliminated: the step leaves the
panel unchanged so the factorization still completes structurally. -/
def eliminate (base s m w : Nat) (P : ColB) : ColB :=
  let piv := P s (base + s)
  if piv = 0 then P else
    fun c r =>
      if base + s < r ∧ r < m then
        if c = s then P c r / piv
        else if s < c ∧ c < w then P c r - P s r / piv * P c (base + s)
        else P c r
      else P c r

/-- Modelled from the spec: the panel factorization recursion of the
Panel Factorizer (spec 4.1) on a workspace copy of the panel; produces
one pivot record per diagonal step.  Records are row offsets relative to
the first panel row. -/
def luPanelGo (base m w : Nat) : Nat → Nat → ColB → List Nat × ColB
  | _, 0, P => ([], P)
  | s, steps+1, P =>
      let p := argmaxRow P s (base + s) m
      let P1 := swapRows (base + s) p P
      let P2 := eliminate base s m w P1
      let res := luPanelGo base m w (s+1) steps P2
      ((p - base) :: res.1, res.2)

/-- Factor a panel of width w with the given number of diagonal steps. -/
def luPanel (base m w steps : Nat) (P : ColB) : List Nat × ColB :=
  luPanelGo base m w 0 steps P

/-- internal::copy( Apanel.sub(0,0,0,0), A.sub(k,k,k,k) ): copy the top
(factored) workspace tile over the diagonal tile of the panel column. -/
def copyTopTile (base mbk w : Nat) (F col : ColB) : ColB := fun c r =>
  if c < w ∧ base ≤ r ∧ r < base + mbk then F c r else col c r

/-- Sum of f d * g d over a list of indices. -/
def dotList (f g : Nat → ℚ) (idxs : List Nat) : ℚ :=
  idxs.foldl (fun acc d => acc + f d * g d) 0

/-- Forward substitution against an upper-triangular, non-unit matrix U
(given by entries U d c), solving x U = b; returns the list of the first
n solution entries. -/
def fsubUpper (U : Nat → Nat → ℚ) (b : Nat → ℚ) : Nat → List ℚ
  | 0 => []
  | c+1 =>
      let xs := fsubUpper U b c
      xs ++ [(b c - dotList (fun e => xs.getD e 0) (fun e => U e c) (List.range c)) / U c c]

/-- Modelled from the spec: internal::trsm Side::Right, Uplo::Upper,
Diag::NonUnit with the diagonal tile of the panel column, applied to the
rows of the panel below the diagonal tile (rows base+mbk..m-1); each such
row is solved independently against the upper triangle of the diagonal
tile. -/
def trsmRightUpperNonUnit (base mbk w m : Nat) (colK : ColB) : ColB := fun c r =>
  if base + mbk ≤ r ∧ r < m ∧ c < w then
    (fsubUpper (fun e c' => colK c' (base + e)) (fun c' => colK c' r) w).getD c 0
  else colK c r

/-- Forward substitution against a unit lower-triangular matrix L (given
by entries L r e for e < r), solving L x = b; returns the list of the
first n solution entries. -/
def fsubLowerUnit (L : Nat → Nat → ℚ) (b : Nat → ℚ) : Nat → List ℚ
  | 0 => []
  | r+1 =>
      let xs := fsubLowerUnit L b r
      xs ++ [b r - dotList (fun e => xs.getD e 0) (fun e => L r e) (List.range r)]

/-- Modelled from the spec: internal::trsm Side::Left, Uplo::Lower,
Diag::Unit with the diagonal tile of panel k, applied to one
block-column j at tile row k (rows base..base+mbk-1); each local column
of the tile is solved independently. -/
def trsmLeftLowerUnit (base mbk : Nat) (colK colJ : ColB) : ColB := fun c r =>
  if base ≤ r ∧ r < base + mbk then
    (fsubLowerUnit (fun x e => colK e (base + x)) (fun x => colJ c (base + x)) mbk).getD (r - base) 0
  else colJ c r

/-- Modelled from the spec: internal::gemm rank-update
A(k+1:mt-1, j) -= A(k+1:mt-1, k) * A(k, j) on one block-column j
(rows base+mbk..m-1, inner dimension w = nb k). -/
def gemmColUpdate (base mbk w m : Nat) (colK colJ : ColB) : ColB := fun c r =>
  if base + mbk ≤ r ∧ r < m then
    colJ c r - dotList (fun e => colK e r) (fun e => colJ c (base + e)) (List.range w)
  else colJ c r

/-- Length of the pivot sequence of panel k:
diag_len = min(A.tileMb(k), A.tileNb(k)). -/
def diagLen (d : Dims) (k : Nat) : Nat := min (d.mb k) (d.nb k)

/-- The panel part of one iteration k of the getrf_ca driver, in source
order: factor the panel into the Awork workspace (internal::getrf_ca
kernel), record the pivot sequence, permuteRows on the panel column,
copy the factored top workspace tile onto A(k,k), clear the workspace,
then trsm Side::Right on the rows of the panel below the diagonal. -/
def panelPhase (d : Dims) (k : Nat) (M : Mat) : Mat × List Nat :=
  let base := rowOff d k
  let fac := luPanel base (mrows d) (d.nb k) (diagLen d k) (M k)
  let M1 := updCol M k (applyPivots fac.1 base (M k))
  let M2 := updCol M1 k (copyTopTile base (d.mb k) (d.nb k) fac.2 (M1 k))
  let M3 := updCol M2 k (trsmRightUpperNonUnit base (d.mb k) (d.nb k) (mrows d) (M2 k))
  (M3, fac.1)

/-- The per-column body of the lookahead loop of the driver, for one
column j in the window k+1 .. k+lookahead: permuteRows on
A(k:mt-1, j), trsm with the unit lower triangle of A(k,k) on A(k,j),
tileBcast of A(k,j) (value-neutral), then the gemm update of
A(k+1:mt-1, j). -/
def colJob (d : Dims) (k : Nat) (piv : List Nat) (M : Mat) (j : Nat) : Mat :=
  let base := rowOff d k
  let M1 := updCol M j (applyPivots piv base (M j))
  let M2 := updCol M1 j (trsmLeftLowerUnit base (d.mb k) (M1 k) (M1 j))
  updCol M2 j (gemmColUpdate base (d.mb k) (d.nb k) (mrows d) (M2 k) (M2 j))

/-- Columns visited by the lookahead loop:
for (j = k+1; j < k+1+lookahead and j < A_nt; ++j). -/
def lookColsN (k la nt : Nat) : List Nat :=
  List.range' (k+1) (min (k+1+la) nt - (k+1))

/-- Columns of the batched trailing update: k+1+lookahead .. A_nt-1. -/
def trailColsN (k la nt : Nat) : List Nat :=
  List.range' (k+1+la) (nt - (k+1+la))

/-- The lookahead loop of the driver: the per-column jobs in increasing
column order. -/
def lookaheadPhase (d : Dims) (k la : Nat) (piv : List Nat) (M : Mat) : Mat :=
  (lookColsN k la d.nt).foldl (colJob d k piv) M

/-- The batched trailing update, guarded by if (k+1+lookahead < A_nt):
one permuteRows call on A(k:mt-1, k+1+lookahead:nt-1), one trsm call on
A(k, k+1+lookahead:nt-1), the trailing broadcast (value-neutral), then
one gemm call on A(k+1:mt-1, k+1+lookahead:nt-1).  Each batched call
acts on every block-column of its range independently. -/
def trailingPhase (d : Dims) (k la : Nat) (piv : List Nat) (M : Mat) : Mat :=
  if k + 1 + la < d.nt then
    let base := rowOff d k
    let tc := trailColsN k la d.nt
    let M1 : Mat := fun j => if j ∈ tc then applyPivots piv base (M j) else M j
    let M2 : Mat := fun j => if j ∈ tc then trsmLeftLowerUnit base (d.mb k) (M1 k) (M1 j) else M1 j
    fun j => if j ∈ tc then gemmColUpdate base (d.mb k) (d.nb k) (mrows d) (M2 k) (M2 j) else M2 j
  else M

/-- One iteration of the main factorization loop of getrf_ca: panel
phase, then lookahead columns, then the batched trailing update. -/
def iterK (d : Dims) (la k : Nat) (M : Mat) : Mat × List Nat :=
  let pf := panelPhase d k M
  (trailingPhase d k la pf.2 (lookaheadPhase d k la pf.2 pf.1), pf.2)

/-- The main loop for (k = 0; k < min_mt_nt; ++k), returning the final
matrix and the pivot table (pivots.at(k) at position k). -/
def loopFrom (d : Dims) (la : Nat) : Nat → Nat → Mat → Mat × List (List Nat)
  | _, 0, M => (M, [])
  | k, c+1, M =>
      let st := iterK d la k M
      let rest := loopFrom d la (k+1) c st.1
      (rest.1, st.2 :: rest.2)

/-- One step of the final pivot-to-the-left loop: permuteRows on
A(k:mt-1, 0:k-1) with pivots.at(k) (skipped for k = 0 since the column
range is empty). -/
def leftPivotK (d : Dims) (piv : List Nat) (k : Nat) (M : Mat) : Mat :=
  fun j => if j < k then applyPivots piv (rowOff d k) (M j) else M j

/-- The final pivot-to-the-left loop of getrf_ca. -/
def leftPivotPhase (d : Dims) (pivs : List (List Nat)) (M : Mat) : Mat :=
  (List.range (min d.mt d.nt)).foldl
    (fun M' k => leftPivotK d (pivs.getD k []) k M') M

/-- The getrf_ca driver (internal::specialization::getrf_ca): the main
factorization loop over min(A.mt(), A.nt()) panels followed by the
pivot-to-the-left loop.  The source function returns void: its outputs
are exactly the overwritten matrix and the populated pivot table, which
is why the result type has no singular-index component. -/
def getrf_ca (d : Dims) (la : Nat) (A : Mat) : Mat × List (List Nat) :=
  let res := loopFrom d la 0 (min d.mt d.nt) A
  (leftPivotPhase d res.2 res.1, res.2)

/-- Canonical per-column update: permute, triangular solve, gemm, as a
function of the panel column and the updated column only. -/
def colStep (d : Dims) (k : Nat) (piv : List Nat) (colK colJ : ColB) : ColB :=
  let base := rowOff d k
  let C1 := applyPivots piv base colJ
  let C2 := trsmLeftLowerUnit base (d.mb k) colK C1
  gemmColUpdate base (d.mb k) (d.nb k) (mrows d) colK C2

/-- Canonical form of the whole update of iteration k: every column
j in k+1 .. nt-1 receives the same per-column update, independent of
how the lookahead window splits the range. -/
def updateAllCols (d : Dims) (k : Nat) (piv : List Nat) (M : Mat) : Mat :=
  fun j => if k+1 ≤ j ∧ j < d.nt then colStep d k piv (M k) (M j) else M j

/-- Canonical (lookahead-free) form of one main-loop iteration. -/
def iterC (d : Dims) (k : Nat) (M : Mat) : Mat × List Nat :=
  let pf := panelPhase d k M
  (updateAllCols d k pf.2 pf.1, pf.2)

/-- Modelled from the spec: the advisory return signal (spec section 6,
Return signal), absent from the source, whose getrf_ca returns void with
the comment TODO: return value.  It is the index of the first panel
whose diagonal holds an exactly zero pivot, or none as the success
sentinel. -/
def specInfo (d : Dims) (M : Mat) : Option Nat :=
  (List.range (min d.mt d.nt)).find? (fun k =>
    (List.range (diagLen d k)).any (fun s => decide (M k s (rowOff d k + s) = 0)))

/-- Square tile grid of block size one: the setting of the concrete
4x4 scenario of the spec (block size 1 for simplicity). -/
def unitDims (n : Nat) : Dims := ⟨fun _ => 1, fun _ => 1, n, n⟩

/-- The identity matrix in block-column form at block size one. -/
def idMat : Mat := fun j c r => if c = 0 ∧ r = j then 1 else 0

/-- The all-zero matrix. -/
def zeroMat : Mat := fun _ _ _ => 0

/-! ### Event trace of the driver

The sequential order in which the driver issues kernel, broadcast and
workspace calls, with the tag arguments of the source.  Value-level
effects are modelled above; the trace models ordering, tags, broadcast
modes and workspace lifetime. -/

/-- One driver call of getrf_ca, with the arguments relevant to
ordering, tagging, broadcast mode and workspace lifetime.
permuteRows carries the panel index whose pivot sequence it applies,
its column range, and its tag argument.  pivotBcast is the MPI_Bcast of
pivots.at(k): MPI_Bcast has no tag parameter, hence the Option Nat tag,
always none in the trace. -/
inductive Ev where
  | insertTiles (k : Nat)
  | panelFactor (k : Nat)
  | pivotBcast (k : Nat) (tag : Option Nat)
  | permuteRows (kPiv colLo colHi tag : Nat)
  | copyDiag (k : Nat)
  | listBcast (k tag : Nat) (shared : Bool)
  | clearTiles (k : Nat)
  | trsmRU (k : Nat)
  | bcastMTPanel (k : Nat) (tags : List Nat) (shared : Bool)
  | trsmLL (k colLo colHi : Nat)
  | tileBcast (i j tag : Nat)
  | gemmUpd (k colLo colHi : Nat)
  | bcastMTTrail (k : Nat) (tags : List Nat)
  deriving DecidableEq, Repr

/-- bool is_shared = lookahead > 0 (line 58 of the driver). -/
def is_shared (lookahead : Nat) : Bool := decide (0 < lookahead)

/-- Tags of the multi-list broadcast of the factored panel tiles to the
right-hand side: for i = k+1 .. A_mt-1, tag = i. -/
def panelBcastTags (k mt : Nat) : List Nat :=
  (List.range' (k+1) (mt - (k+1))).map (fun i => i)

/-- Tags of the multi-list broadcast of the trailing row tiles: for
j = k+1+lookahead .. A_nt-1, tag = j + A_mt (the source comment: tag
must be distinct from sending left panel). -/
def trailingBcastTags (k la mt nt : Nat) : List Nat :=
  (trailColsN k la nt).map (fun j => j + mt)

/-- The driver calls of iteration k that follow the panel task: the
trsm on the rows below the diagonal, the multi-list broadcast of the
panel tiles to the right-hand side, the per-column lookahead jobs, and
the guarded batched trailing update. -/
def iterTraceTail (mt nt la k : Nat) : List Ev :=
  [Ev.trsmRU k, Ev.bcastMTPanel k (panelBcastTags k mt) (is_shared la)]
  ++ (lookColsN k la nt).flatMap (fun j =>
       [Ev.permuteRows k j j j, Ev.trsmLL k j j, Ev.tileBcast k j j,
        Ev.gemmUpd k j j])
  ++ (if k + 1 + la < nt then
       [Ev.permuteRows k (k+1+la) (nt-1) (k+1+la),
        Ev.trsmLL k (k+1+la) (nt-1),
        Ev.bcastMTTrail k (trailingBcastTags k la mt nt),
        Ev.gemmUpd k (k+1+la) (nt-1)]
      else [])

/-- The driver calls of one iteration k of the main loop, in the order
the sequential driver issues them: workspace allocation, the panel
factorization, the pivot MPI_Bcast, the panel row swap, the copy of the
factored tile onto A(k,k), the panel-column broadcast, the workspace
clear, then the tail of the iteration. -/
def iterTrace (mt nt la k : Nat) : List Ev :=
  [Ev.insertTiles k, Ev.panelFactor k, Ev.pivotBcast k none,
   Ev.permuteRows k k k (k+1), Ev.copyDiag k, Ev.listBcast k k true,
   Ev.clearTiles k]
  ++ iterTraceTail mt nt la k

/-- The full driver trace: the main loop followed by the
pivot-to-the-left loop (whose permuteRows calls use the default tag 0
and column range 0 .. k-1, skipped for k = 0). -/
def getrfTrace (mt nt la : Nat) : List Ev :=
  (List.range (min mt nt)).flatMap (iterTrace mt nt la)
  ++ (List.range (min mt nt)).flatMap (fun k =>
       if 0 < k then [Ev.permuteRows k 0 (k-1) 0] else [])

/-- Is e a row-swap call applying the pivot sequence of panel k? -/
def isSwapForB (k : Nat) (e : Ev) : Bool :=
  match e with
  | Ev.permuteRows kPiv _ _ _ => kPiv == k
  | _ => false

/-- Is e a tagged pivot broadcast?  Always false in the driver trace,
because MPI_Bcast carries no tag. -/
def isTaggedPivotBcast (e : Ev) : Bool :=
  match e with
  | Ev.pivotBcast _ (some _) => true
  | _ => false

/-- Does e allocate or release panel-workspace tiles? -/
def isWorkspaceEvB (e : Ev) : Bool :=
  match e with
  | Ev.insertTiles _ => true
  | Ev.clearTiles _ => true
  | _ => false

/-- Fold the workspace-lifetime effect of a trace over the list of live
workspace panel indices: insertLocalTiles adds panel k, clear removes
it. -/
def liveWork : List Ev → List Nat → List Nat
  | [], s => s
  | Ev.insertTiles k :: tr, s => liveWork tr (k :: s)
  | Ev.clearTiles k :: tr, s => liveWork tr (s.erase k)
  | _ :: tr, s => liveWork tr s

/-! ### Options handling (getrf_ca wrapper) and the gbsv driver -/

/-- The option keys read by the getrf_ca and gbsv wrappers. -/
inductive OptKey where
  | lookahead
  | innerBlocking
  | maxPanelThreads
  | target
  deriving DecidableEq, Repr

/-- An options map: opts.at(key) throws std::out_of_range exactly when
the key is absent, modelled by none. -/
def Opts : Type := OptKey → Option Int

/-- opts.at(Option::Lookahead).i_ with the catch(std::out_of_range)
fallback to 1.  The source guards the extracted value only with
assert(lookahead >= 0), a debug-build check that never alters the value:
a present out-of-range value is used as-is. -/
def optLookahead (opts : Opts) : Int := (opts OptKey.lookahead).getD 1

/-- opts.at(Option::InnerBlocking).i_ with fallback 16; the
assert(ib >= 0) is again a debug-build check only. -/
def optInnerBlocking (opts : Opts) : Int := (opts OptKey.innerBlocking).getD 16

/-- opts.at(Option::MaxPanelThreads).i_ with fallback
max(omp_get_max_threads()/2, 1); the range assert is a debug-build
check only.  ompMaxThreads stands for omp_get_max_threads(). -/
def optMaxPanelThreads (opts : Opts) (ompMaxThreads : Int) : Int :=
  (opts OptKey.maxPanelThreads).getD (max (ompMaxThreads / 2) 1)

/-- An options map holding only Lookahead = -1: a present but
out-of-range value. -/
def negLookaheadOpts : Opts := fun key =>
  if key = OptKey.lookahead then some (-1) else none

/-- An empty options map: every opts.at call throws and every option
falls back to its default. -/
def emptyOpts : Opts := fun _ => none

/-- The options map gbsv builds for the gbtrf call:
InnerBlocking = ib, Lookahead = lookahead, MaxPanelThreads =
max_panel_threads, Target = target. -/
def gbtrfOpts (ib la mpt tgt : Int) : Opts := fun key =>
  match key with
  | OptKey.innerBlocking => some ib
  | OptKey.lookahead => some la
  | OptKey.maxPanelThreads => some mpt
  | OptKey.target => some tgt

/-- The options map gbsv builds for the gbtrs call:
Lookahead = lookahead, Target = target. -/
def gbtrsOpts (la tgt : Int) : Opts := fun key =>
  match key with
  | OptKey.lookahead => some la
  | OptKey.target => some tgt
  | _ => none

/-- The gbsv driver (src/src/gbsv.cc, target-templated wrapper plus
internal::specialization::gbsv), parameterized by the external gbtrf and
gbtrs collaborators, which are not under src/.  gbtrf overwrites the
band matrix and fills the pivots; gbtrs consumes both and overwrites the
right-hand side.  tgt is the target template parameter; ompMaxThreads
stands for omp_get_max_threads(). -/
def gbsv {Band Piv RHS : Type}
    (gbtrf : Band → Opts → Band × Piv)
    (gbtrs : Band → Piv → RHS → Opts → RHS)
    (tgt : Int) (A : Band) (B : RHS) (opts : Opts) (ompMaxThreads : Int) :
    Band × Piv × RHS :=
  let lookahead := optLookahead opts
  let ib := optInnerBlocking opts
  let mpt := optMaxPanelThreads opts ompMaxThreads
  let fac := gbtrf A (gbtrfOpts ib lookahead mpt tgt)
  let sol := gbtrs fac.1 fac.2 B (gbtrsOpts lookahead tgt)
  (fac.1, fac.2, sol)

/-- The composition the spec describes: factor with gbtrf, then solve
with gbtrs on the factored matrix and the unchanged pivots, both phases
receiving the lookahead and target values extracted once. -/
def gbtrfThenGbtrs {Band Piv RHS : Type}
    (gbtrf : Band → Opts → Band × Piv)
    (gbtrs : Band → Piv → RHS → Opts → RHS)
    (tgt : Int) (A : Band) (B : RHS) (opts : Opts) (ompMaxThreads : Int) :
    Band × Piv × RHS :=
  let fac := gbtrf A (gbtrfOpts (optInnerBlocking opts) (optLookahead opts)
    (optMaxPanelThreads opts ompMaxThreads) tgt)
  (fac.1, fac.2, gbtrs fac.1 fac.2 B (gbtrsOpts (optLookahead opts) tgt))

end Slate

namespace Slate

/-! ### Basic helper lemmas -/

theorem updCol_self (M : Mat) (j : Nat) (cb : ColB) : updCol M j cb j = cb := by
  simp [updCol]

theorem updCol_other (M : Mat) (j : Nat) (cb : ColB) (j' : Nat) (h : j' ≠ j) :
    updCol M j cb j' = M j' := by
  simp [updCol, h]

theorem updCol_updCol (M : Mat) (j : Nat) (a b : ColB) :
    updCol (updCol M j a) j b = updCol M j b := by
  funext j'
  by_cases h : j' = j <;> simp [updCol, h]

theorem updCol_id (M : Mat) (j : Nat) : updCol M j (M j) = M := by
  funext j'
  by_cases h : j' = j <;> simp [updCol, h]

theorem foldl_keep {α β : Type} (f : α → β → α) (a : α) (l : List β)
    (h : ∀ b ∈ l, f a b = a) : l.foldl f a = a := by
  induction l with
  | nil => rfl
  | cons x xs ih =>
      have hx : f a x = a := h x (List.mem_cons_self x xs)
      rw [List.foldl_cons, hx]
      exact ih (fun b hb => h b (List.mem_cons_of_mem x hb))

theorem luPanelGo_length (base m w : Nat) :
    ∀ (steps s : Nat) (P : ColB), (luPanelGo base m w s steps P).1.length = steps := by
  intro steps
  induction steps with
  | zero => intro s P; rfl
  | succ c ih =>
      intro s P
      simp [luPanelGo, ih]

theorem panelPhase_piv_length (d : Dims) (k : Nat) (M : Mat) :
    (panelPhase d k M).2.length = min (d.mb k) (d.nb k) := by
  simp [panelPhase, luPanel, luPanelGo_length, diagLen]

theorem loopFrom_length (d : Dims) (la : Nat) :
    ∀ (c k : Nat) (M : Mat), (loopFrom d la k c M).2.length = c := by
  intro c
  induction c with
  | zero => intro k M; rfl
  | succ c ih =>
      intro k M
      simp [loopFrom, ih]

theorem loopFrom_getD_length (d : Dims) (la : Nat) :
    ∀ (c k : Nat) (M : Mat) (i : Nat), i < c →
      ((loopFrom d la k c M).2.getD i []).length = min (d.mb (k + i)) (d.nb (k + i)) := by
  intro c
  induction c with
  | zero => intro k M i hi; omega
  | succ c ih =>
      intro k M i hi
      cases i with
      | zero =>
          simp [loopFrom, iterK, panelPhase_piv_length]
      | succ i' =>
          have h' : i' < c := by omega
          have := ih (k+1) (iterK d la k M).1 i' h'
          simp only [loopFrom, List.getD_cons_succ]
          rw [this]
          congr 2 <;> omega

/-! ### C5: panel-tile broadcast tags are disjoint from trailing-row
broadcast tags -/

theorem panelBcastTags_lt (k mt t : Nat) (h : t ∈ panelBcastTags k mt) : t < mt := by
  simp only [panelBcastTags, List.mem_map] at h
  obtain ⟨i, hi, rfl⟩ := h
  have := List.mem_range'_1.mp hi
  omega

theorem trailingBcastTags_ge (k la mt nt t : Nat)
    (h : t ∈ trailingBcastTags k la mt nt) : mt ≤ t := by
  simp only [trailingBcastTags, trailColsN, List.mem_map] at h
  obtain ⟨j, hj, rfl⟩ := h
  omega

/-- C5: for every step k, the tag set of the panel-tile broadcast list
(tags i for i = k+1 .. mt-1) is disjoint from the tag set of the
trailing-row broadcast list (tags j + mt for j = k+1+lookahead ..
nt-1): every panel tag is below mt and every trailing tag is at least
mt. -/
theorem getrf_ca_bcast_tags_disjoint (k la mt nt : Nat) :
    (panelBcastTags k mt).Disjoint (trailingBcastTags k la mt nt) := by
  intro t hp ht
  have h1 := panelBcastTags_lt k mt t hp
  have h2 := trailingBcastTags_ge k la mt nt t ht
  omega

/-- Witness: the concrete instance k = 0, lookahead = 1 on a 4x4 tile
grid. -/
theorem getrf_ca_bcast_tags_disjoint_witness :
    (panelBcastTags 0 4).Disjoint (trailingBcastTags 0 1 4 4) :=
  getrf_ca_bcast_tags_disjoint 0 1 4 4

/-! ### C3: option extraction of the getrf_ca wrapper -/

/-- Counterexample to C3 as stated: an options map carrying the
out-of-range value Lookahead = -1 does not fall back to the default 1;
the extracted lookahead is -1.  Likewise, with one available host
thread, the max-panel-threads default is max(1/2, 1) = 1, not half the
threads (0). -/
theorem getrf_ca_neg_lookahead_no_fallback :
    optLookahead negLookaheadOpts = -1 ∧ optLookahead negLookaheadOpts ≠ 1 ∧
      optMaxPanelThreads emptyOpts 1 = 1 := by
  refine ⟨rfl, by decide, rfl⟩

/-- C3 amended: a missing option falls back silently to its documented
default (lookahead 1, inner-blocking 16, max-panel-threads
max(omp_get_max_threads()/2, 1)), while a present value — in range or
not — is used exactly as stored: out-of-range values are checked only
by debug assertions and are never replaced by the default. -/
theorem getrf_ca_option_defaults (opts : Opts) (nthreads v : Int) :
    (opts OptKey.lookahead = none → optLookahead opts = 1) ∧
    (opts OptKey.lookahead = some v → optLookahead opts = v) ∧
    (opts OptKey.innerBlocking = none → optInnerBlocking opts = 16) ∧
    (opts OptKey.innerBlocking = some v → optInnerBlocking opts = v) ∧
    (opts OptKey.maxPanelThreads = none →
      optMaxPanelThreads opts nthreads = max (nthreads / 2) 1) ∧
    (opts OptKey.maxPanelThreads = some v → optMaxPanelThreads opts nthreads = v) := by
  refine ⟨?_, ?_, ?_, ?_, ?_, ?_⟩ <;>
    intro h <;>
    simp [optLookahead, optInnerBlocking, optMaxPanelThreads, h]

/-- Witness: concrete instances of the defaults and of the pass-through
of a present value. -/
theorem getrf_ca_option_defaults_witness :
    optLookahead negLookaheadOpts = -1 ∧ optInnerBlocking negLookaheadOpts = 16 ∧
      optMaxPanelThreads negLookaheadOpts 8 = 4 := by
  refine ⟨(getrf_ca_option_defaults negLookaheadOpts 8 (-1)).2.1 rfl, ?_, ?_⟩
  · exact (getrf_ca_option_defaults negLookaheadOpts 8 (-1)).2.2.1 rfl
  · have := (getrf_ca_option_defaults negLookaheadOpts 8 (-1)).2.2.2.2.1 rfl
    rw [this]
    decide

/-! ### C10: gbsv is gbtrf followed by gbtrs -/

/-- C10: gbsv is exactly the composition of gbtrf and gbtrs: the band
matrix and the pivots produced by gbtrf are passed unchanged to gbtrs,
and the options maps built for the two phases hold the same lookahead
value (extracted once from the gbsv options) and the same target. -/
theorem gbsv_is_gbtrf_then_gbtrs {Band Piv RHS : Type}
    (gbtrf : Band → Opts → Band × Piv)
    (gbtrs : Band → Piv → RHS → Opts → RHS)
    (tgt : Int) (A : Band) (B : RHS) (opts : Opts) (nth : Int) :
    gbsv gbtrf gbtrs tgt A B opts nth = gbtrfThenGbtrs gbtrf gbtrs tgt A B opts nth ∧
    gbtrfOpts (optInnerBlocking opts) (optLookahead opts)
        (optMaxPanelThreads opts nth) tgt OptKey.lookahead = some (optLookahead opts) ∧
    gbtrsOpts (optLookahead opts) tgt OptKey.lookahead = some (optLookahead opts) ∧
    gbtrfOpts (optInnerBlocking opts) (optLookahead opts)
        (optMaxPanelThreads opts nth) tgt OptKey.target = some tgt ∧
    gbtrsOpts (optLookahead opts) tgt OptKey.target = some tgt := by
  exact ⟨rfl, rfl, rfl, rfl, rfl⟩

end Slate

namespace Slate

/-! ### C1: the lookahead width never changes the computed results -/

theorem mem_lookColsN (k la nt j : Nat) :
    j ∈ lookColsN k la nt ↔ k+1 ≤ j ∧ j < k+1+la ∧ j < nt := by
  rw [lookColsN, List.mem_range'_1]
  omega

theorem mem_trailColsN (k la nt j : Nat) :
    j ∈ trailColsN k la nt ↔ k+1+la ≤ j ∧ j < nt := by
  rw [trailColsN, List.mem_range'_1]
  omega

theorem colJob_eq_updCol (d : Dims) (k : Nat) (piv : List Nat) (M : Mat) (j : Nat)
    (h : j ≠ k) :
    colJob d k piv M j = updCol M j (colStep d k piv (M k) (M j)) := by
  have hk : k ≠ j := fun hkj => h hkj.symm
  simp only [colJob, colStep, updCol_updCol, updCol_self, updCol_other _ _ _ _ hk]

theorem foldl_colJob (d : Dims) (k : Nat) (piv : List Nat) :
    ∀ (cols : List Nat) (M : Mat), (∀ j ∈ cols, k < j) → cols.Nodup →
      cols.foldl (colJob d k piv) M =
        fun j => if j ∈ cols then colStep d k piv (M k) (M j) else M j := by
  intro cols
  induction cols with
  | nil =>
      intro M _ _
      funext j
      simp
  | cons c0 rest ih =>
      intro M hgt hnd
      have hc0k : c0 ≠ k := by
        have := hgt c0 (List.mem_cons_self c0 rest)
        omega
      have hc0rest : c0 ∉ rest := (List.nodup_cons.mp hnd).1
      rw [List.foldl_cons, colJob_eq_updCol d k piv M c0 hc0k]
      set M' := updCol M c0 (colStep d k piv (M k) (M c0)) with hM'
      have hMk : M' k = M k := by
        rw [hM', updCol_other]
        intro hk
        exact hc0k hk.symm
      rw [ih M' (fun j hj => hgt j (List.mem_cons_of_mem c0 hj)) (List.nodup_cons.mp hnd).2]
      funext j
      by_cases hjr : j ∈ rest
      · have hjc0 : j ≠ c0 := fun he => hc0rest (he ▸ hjr)
        have : M' j = M j := by rw [hM', updCol_other _ _ _ _ hjc0]
        simp [hjr, hjc0, this, hMk]
      · by_cases hjc0 : j = c0
        · subst hjc0
          simp [hjr, hM', updCol_self]
        · have : M' j = M j := by rw [hM', updCol_other _ _ _ _ hjc0]
          simp [hjr, hjc0, this]

theorem lookColsN_gt (k la nt : Nat) : ∀ j ∈ lookColsN k la nt, k < j := by
  intro j hj
  have := (mem_lookColsN k la nt j).mp hj
  omega

theorem lookaheadPhase_eq (d : Dims) (k la : Nat) (piv : List Nat) (M : Mat) :
    lookaheadPhase d k la piv M =
      fun j => if j ∈ lookColsN k la d.nt then colStep d k piv (M k) (M j) else M j := by
  rw [lookaheadPhase]
  exact foldl_colJob d k piv (lookColsN k la d.nt) M (lookColsN_gt k la d.nt)
    (List.nodup_range' _ _)

/-- The lookahead window followed by the batched trailing update equals
the canonical whole-range per-column update, whatever the lookahead
width. -/
theorem updatePhase_eq (d : Dims) (k la : Nat) (piv : List Nat) (M : Mat) :
    trailingPhase d k la piv (lookaheadPhase d k la piv M) = updateAllCols d k piv M := by
  rw [lookaheadPhase_eq]
  set Ml : Mat := fun j => if j ∈ lookColsN k la d.nt then colStep d k piv (M k) (M j) else M j
    with hMl
  have hMlk : Ml k = M k := by
    rw [hMl]
    simp only [mem_lookColsN]
    rw [if_neg]
    omega
  have hMlOut : ∀ j, j ∉ lookColsN k la d.nt → Ml j = M j := by
    intro j hj
    rw [hMl]
    simp only [hj, if_false]
  have hMlIn : ∀ j, j ∈ lookColsN k la d.nt → Ml j = colStep d k piv (M k) (M j) := by
    intro j hj
    rw [hMl]
    simp only [hj, if_true]
  by_cases hg : k + 1 + la < d.nt
  · rw [trailingPhase, if_pos hg]
    funext j
    simp only
    have htk : k ∉ trailColsN k la d.nt := by
      simp only [mem_trailColsN]
      omega
    by_cases hjt : j ∈ trailColsN k la d.nt
    · have hjl : j ∉ lookColsN k la d.nt := by
        have := (mem_trailColsN k la d.nt j).mp hjt
        simp only [mem_lookColsN]
        omega
      have hrange := (mem_trailColsN k la d.nt j).mp hjt
      simp only [hjt, if_true, htk, if_false]
      rw [hMlk, hMlOut j hjl, updateAllCols, if_pos (by omega)]
      rfl
    · simp only [hjt, if_false]
      by_cases hjl : j ∈ lookColsN k la d.nt
      · have hrange := (mem_lookColsN k la d.nt j).mp hjl
        rw [hMlIn j hjl, updateAllCols, if_pos (by omega)]
      · have hr1 := (mem_lookColsN k la d.nt j).not.mp hjl
        have hr2 := (mem_trailColsN k la d.nt j).not.mp hjt
        rw [hMlOut j hjl, updateAllCols, if_neg (by omega)]
  · rw [trailingPhase, if_neg hg]
    funext j
    simp only [hMl, updateAllCols]
    have : (j ∈ lookColsN k la d.nt) ↔ (k+1 ≤ j ∧ j < d.nt) := by
      rw [mem_lookColsN]
      omega
    by_cases hj : k+1 ≤ j ∧ j < d.nt
    · rw [if_pos (this.mpr hj), if_pos hj]
    · rw [if_neg (fun hm => hj (this.mp hm)), if_neg hj]

theorem iterK_eq_iterC (d : Dims) (la k : Nat) (M : Mat) :
    iterK d la k M = iterC d k M := by
  rw [iterK, iterC, updatePhase_eq]

theorem loopFrom_eq (d : Dims) (la1 la2 : Nat) :
    ∀ (c k : Nat) (M : Mat), loopFrom d la1 k c M = loopFrom d la2 k c M := by
  intro c
  induction c with
  | zero => intro k M; rfl
  | succ c ih =>
      intro k M
      rw [loopFrom, loopFrom, iterK_eq_iterC d la1, iterK_eq_iterC d la2, ih]

/-- C1: getrf_ca computes identical factors in A and identical pivot
sequences for every value of the lookahead width (including 0): for any
input matrix, any tile-grid dimensions and any two lookahead values, the
overwritten matrix and the pivot table coincide exactly.  The lookahead
window only re-partitions the per-column updates of each iteration
between the eager loop and the batched trailing call; both orders apply
the same per-column operations. -/
theorem getrf_ca_lookahead_invariant (d : Dims) (A : Mat) (la1 la2 : Nat) :
    getrf_ca d la1 A = getrf_ca d la2 A := by
  rw [getrf_ca, getrf_ca, loopFrom_eq d la1 la2]

end Slate

namespace Slate

/-! ### C6: shape of the pivot table -/

/-- C6: getrf_ca populates the pivot table with exactly
min(A.mt(), A.nt()) sequences (pivots.resize(min_mt_nt)), and the
sequence of panel k has length min(tileMb(k), tileNb(k))
(pivots.at(k).resize(diag_len), filled with one record per diagonal
step by the panel factorization). -/
theorem getrf_ca_pivot_table_shape (d : Dims) (la : Nat) (A : Mat) :
    (getrf_ca d la A).2.length = min d.mt d.nt ∧
    ∀ k, k < min d.mt d.nt →
      ((getrf_ca d la A).2.getD k []).length = min (d.mb k) (d.nb k) := by
  constructor
  · show (loopFrom d la 0 (min d.mt d.nt) A).2.length = min d.mt d.nt
    exact loopFrom_length d la (min d.mt d.nt) 0 A
  · intro k hk
    show ((loopFrom d la 0 (min d.mt d.nt) A).2.getD k []).length = min (d.mb k) (d.nb k)
    have := loopFrom_getD_length d la (min d.mt d.nt) 0 A k hk
    simpa using this

/-- Witness: the 4x4 block-size-one grid has 4 pivot sequences and the
sequence of panel 0 has length 1. -/
theorem getrf_ca_pivot_table_shape_witness :
    (getrf_ca (unitDims 4) 1 idMat).2.length = min 4 4 ∧
    ((getrf_ca (unitDims 4) 1 idMat).2.getD 0 []).length = 1 := by
  constructor
  · exact (getrf_ca_pivot_table_shape (unitDims 4) 1 idMat).1
  · have := (getrf_ca_pivot_table_shape (unitDims 4) 1 idMat).2 0 (by norm_num [unitDims])
    simpa [unitDims] using this

end Slate

namespace Slate

/-! ### C7 and C2: concrete factorizations at block size one -/

theorem rowOff_unit (n : Nat) : ∀ k, rowOff (unitDims n) k = k := by
  intro k
  induction k with
  | zero => rfl
  | succ k ih =>
      show rowOff (unitDims n) k + (unitDims n).mb k = k + 1
      rw [ih]
      rfl

theorem mrows_unit (n : Nat) : mrows (unitDims n) = n := by
  rw [mrows, rowOff_unit]
  rfl

theorem swapRows_self (r : Nat) (col : ColB) : swapRows r r col = col := by
  funext c r'
  by_cases h : r' = r <;> simp [swapRows, h]

theorem applyPivots_zero (base : Nat) (col : ColB) : applyPivots [0] base col = col := by
  show applyPivotsFrom base 1 [] (swapRows (base + 0) (base + 0) col) = col
  rw [applyPivotsFrom, swapRows_self]

theorem copyTopTile_self (base mbk w : Nat) (col : ColB) :
    copyTopTile base mbk w col col = col := by
  funext c r
  rw [copyTopTile]
  split <;> rfl

theorem trsmLeftLowerUnit_one (base : Nat) (colK colJ : ColB) :
    trsmLeftLowerUnit base 1 colK colJ = colJ := by
  funext c r
  rw [trsmLeftLowerUnit]
  by_cases h : base ≤ r ∧ r < base + 1
  · have hr : r = base := by omega
    rw [if_pos h, hr]
    show ([] ++ [colJ c (base + 0) - dotList _ _ (List.range 0)]).getD (base - base) 0 = colJ c base
    simp [dotList]
  · rw [if_neg h]

theorem trsmRightUpperNonUnit_trivial (base mbk w m : Nat) (colK : ColB)
    (h : m ≤ base + mbk) : trsmRightUpperNonUnit base mbk w m colK = colK := by
  funext c r
  rw [trsmRightUpperNonUnit, if_neg]
  intro hc
  omega

theorem idMat_diag (k : Nat) : idMat k 0 k = 1 := by
  simp [idMat]

theorem idMat_off (k c r : Nat) (h : ¬(c = 0 ∧ r = k)) : idMat k c r = 0 := by
  simp only [idMat, if_neg h]

theorem argmaxRow_id (n k : Nat) : argmaxRow (idMat k) 0 k n = k := by
  rw [argmaxRow]
  apply foldl_keep
  intro r hr
  by_cases hrk : r = k
  · subst hrk
    simp
  · rw [idMat_off k 0 r (by simp [hrk]), idMat_diag]
    simp

theorem eliminate_id (n k : Nat) : eliminate k 0 n 1 (idMat k) = idMat k := by
  rw [eliminate]
  simp only [Nat.add_zero, idMat_diag]
  rw [if_neg one_ne_zero]
  funext c r
  by_cases hg : k < r ∧ r < n
  · rw [if_pos hg]
    by_cases hc : c = 0
    · subst hc
      rw [if_pos rfl, idMat_off k 0 r (by omega), zero_div]
    · rw [if_neg hc, if_neg (by omega)]
  · rw [if_neg hg]

theorem luPanel_id (n k : Nat) : luPanel k n 1 1 (idMat k) = ([0], idMat k) := by
  show (((argmaxRow (idMat k) 0 (k + 0) n) - k) ::
      (luPanelGo k n 1 1 0 (eliminate k 0 n 1 (swapRows (k + 0) (argmaxRow (idMat k) 0 (k + 0) n) (idMat k)))).1,
      (luPanelGo k n 1 1 0 (eliminate k 0 n 1 (swapRows (k + 0) (argmaxRow (idMat k) 0 (k + 0) n) (idMat k)))).2) = ([0], idMat k)
  rw [Nat.add_zero, argmaxRow_id, swapRows_self, eliminate_id]
  simp [luPanelGo]

theorem trsmRightUpperNonUnit_id (n k : Nat) :
    trsmRightUpperNonUnit k 1 1 n (idMat k) = idMat k := by
  funext c r
  rw [trsmRightUpperNonUnit]
  by_cases hg : k + 1 ≤ r ∧ r < n ∧ c < 1
  · have hc : c = 0 := by omega
    subst hc
    rw [if_pos hg]
    show ([] ++ [(idMat k 0 r - dotList _ _ (List.range 0)) / idMat k 0 (k + 0)]).getD 0 0 = idMat k 0 r
    have hoff : idMat k 0 r = 0 := idMat_off k 0 r (by omega)
    simp [dotList, hoff, Nat.add_zero, idMat_diag]
  · rw [if_neg hg]

theorem panelPhase_id (n k : Nat) : panelPhase (unitDims n) k idMat = (idMat, [0]) := by
  have hb : rowOff (unitDims n) k = k := rowOff_unit n k
  have hm : mrows (unitDims n) = n := mrows_unit n
  have hd : diagLen (unitDims n) k = 1 := rfl
  have hmb : (unitDims n).mb k = 1 := rfl
  have hnb : (unitDims n).nb k = 1 := rfl
  simp only [panelPhase, hb, hm, hd, hmb, hnb]
  rw [luPanel_id n k]
  simp only [applyPivots_zero, updCol_id, copyTopTile_self, trsmRightUpperNonUnit_id]

theorem gemmColUpdate_id (n k j : Nat) :
    gemmColUpdate k 1 1 n (idMat k) (idMat j) = idMat j := by
  funext c r
  rw [gemmColUpdate]
  by_cases hg : k + 1 ≤ r ∧ r < n
  · rw [if_pos hg]
    have hoff : idMat k 0 r = 0 := idMat_off k 0 r (by omega)
    show idMat j c r - dotList (fun e => idMat k e r) (fun e => idMat j c (k + e)) [0] = idMat j c r
    simp [dotList, hoff]
  · rw [if_neg hg]

theorem colStep_id (n k j : Nat) :
    colStep (unitDims n) k [0] (idMat k) (idMat j) = idMat j := by
  have hb : rowOff (unitDims n) k = k := rowOff_unit n k
  have hm : mrows (unitDims n) = n := mrows_unit n
  have hmb : (unitDims n).mb k = 1 := rfl
  have hnb : (unitDims n).nb k = 1 := rfl
  simp only [colStep, hb, hm, hmb, hnb]
  rw [applyPivots_zero, trsmLeftLowerUnit_one]
  exact gemmColUpdate_id n k j

theorem updateAllCols_id (n k : Nat) :
    updateAllCols (unitDims n) k [0] idMat = idMat := by
  funext j
  rw [updateAllCols]
  by_cases hj : k + 1 ≤ j ∧ j < (unitDims n).nt
  · rw [if_pos hj, colStep_id]
  · rw [if_neg hj]

theorem iterC_id (n k : Nat) : iterC (unitDims n) k idMat = (idMat, [0]) := by
  rw [iterC, panelPhase_id]
  show (updateAllCols (unitDims n) k [0] idMat, [0]) = (idMat, [0])
  rw [updateAllCols_id]

theorem loopFrom_id (n la : Nat) :
    ∀ (c k : Nat), loopFrom (unitDims n) la k c idMat = (idMat, List.replicate c [0]) := by
  intro c
  induction c with
  | zero => intro k; rfl
  | succ c ih =>
      intro k
      rw [loopFrom, iterK_eq_iterC, iterC_id]
      show ((loopFrom (unitDims n) la (k+1) c idMat).1,
        [0] :: (loopFrom (unitDims n) la (k+1) c idMat).2) = _
      rw [ih (k+1)]
      rfl

theorem getD_replicate (a : List Nat) : ∀ (c k : Nat), k < c →
    (List.replicate c a).getD k [] = a := by
  intro c
  induction c with
  | zero => intro k hk; omega
  | succ c ih =>
      intro k hk
      cases k with
      | zero => rfl
      | succ k' =>
          rw [List.replicate_succ]
          exact ih k' (by omega)

theorem leftPivotK_zero_piv (d : Dims) (k : Nat) (M : Mat) :
    leftPivotK d [0] k M = M := by
  funext j
  rw [leftPivotK]
  by_cases hj : j < k
  · rw [if_pos hj, applyPivots_zero]
  · rw [if_neg hj]

theorem leftPivotPhase_id (n : Nat) :
    leftPivotPhase (unitDims n) (List.replicate n [0]) idMat = idMat := by
  rw [leftPivotPhase]
  apply foldl_keep
  intro k hk
  have hkn : k < n := by
    have := List.mem_range.mp hk
    simpa [unitDims] using this
  rw [getD_replicate [0] n k hkn, leftPivotK_zero_piv]

/-- The identity matrix factors without change for every lookahead
width: the matrix is left equal to the identity and every panel records
the single self-swap pivot record 0. -/
theorem getrf_ca_identity (n la : Nat) :
    getrf_ca (unitDims n) la idMat = (idMat, List.replicate n [0]) := by
  rw [getrf_ca]
  have hmin : min (unitDims n).mt (unitDims n).nt = n := by
    simp [unitDims]
  rw [hmin]
  show (leftPivotPhase (unitDims n) (loopFrom (unitDims n) la 0 n idMat).2
      (loopFrom (unitDims n) la 0 n idMat).1,
    (loopFrom (unitDims n) la 0 n idMat).2) = _
  rw [loopFrom_id n la n 0]
  show (leftPivotPhase (unitDims n) (List.replicate n [0]) idMat, _) = _
  rw [leftPivotPhase_id]

theorem specInfo_id (n : Nat) : specInfo (unitDims n) idMat = none := by
  rw [specInfo]
  apply List.find?_eq_none.mpr
  intro k _
  have hd : diagLen (unitDims n) k = 1 := rfl
  rw [hd]
  show ([0].any fun s => decide (idMat k s (rowOff (unitDims n) k + s) = 0)) ≠ true
  simp only [List.any_cons, List.any_nil, Bool.or_false, Nat.add_zero, rowOff_unit n k,
    idMat_diag]
  simp

end Slate

namespace Slate

/-- C7: factoring the 4x4 tile-grid identity matrix at block size one
leaves the matrix equal to the identity (so L and U are both the
identity in the compact storage), produces four pivot sequences each
holding the single record 0 — a swap of each pivot row with itself —
and the spec-modelled advisory singular index is the success sentinel
none. -/
theorem getrf_ca_identity4 :
    getrf_ca (unitDims 4) 1 idMat = (idMat, [[0], [0], [0], [0]]) ∧
    specInfo (unitDims 4) (getrf_ca (unitDims 4) 1 idMat).1 = none := by
  have h := getrf_ca_identity 4 1
  constructor
  · exact h
  · rw [h]
    exact specInfo_id 4

/-! ### C2: a zero diagonal pivot never aborts the factorization -/

theorem argmaxRow_zero_col (lo m : Nat) (col : ColB) (hz : ∀ r, col 0 r = 0) :
    argmaxRow col 0 lo m = lo := by
  rw [argmaxRow]
  apply foldl_keep
  intro r _
  rw [hz lo, hz r]
  simp

theorem luPanel_zero : luPanel 0 1 1 1 (zeroMat 0) = ([0], zeroMat 0) := by
  show (((argmaxRow (zeroMat 0) 0 (0 + 0) 1) - 0) ::
      (luPanelGo 0 1 1 1 0 (eliminate 0 0 1 1 (swapRows (0 + 0) (argmaxRow (zeroMat 0) 0 (0 + 0) 1) (zeroMat 0)))).1,
      (luPanelGo 0 1 1 1 0 (eliminate 0 0 1 1 (swapRows (0 + 0) (argmaxRow (zeroMat 0) 0 (0 + 0) 1) (zeroMat 0)))).2) = ([0], zeroMat 0)
  rw [Nat.add_zero, argmaxRow_zero_col 0 1 (zeroMat 0) (fun r => rfl), swapRows_self]
  have he : eliminate 0 0 1 1 (zeroMat 0) = zeroMat 0 := by
    rw [eliminate]
    exact if_pos rfl
  rw [he]
  simp [luPanelGo]

theorem panelPhase_zero : panelPhase (unitDims 1) 0 zeroMat = (zeroMat, [0]) := by
  have hb : rowOff (unitDims 1) 0 = 0 := rfl
  have hm : mrows (unitDims 1) = 1 := mrows_unit 1
  have hd : diagLen (unitDims 1) 0 = 1 := rfl
  have hmb : (unitDims 1).mb 0 = 1 := rfl
  have hnb : (unitDims 1).nb 0 = 1 := rfl
  simp only [panelPhase, hb, hm, hd, hmb, hnb]
  rw [luPanel_zero]
  simp only [applyPivots_zero, updCol_id, copyTopTile_self,
    trsmRightUpperNonUnit_trivial 0 1 1 1 (zeroMat 0) (by omega), updCol_id]

theorem updateAllCols_degenerate (d : Dims) (k : Nat) (piv : List Nat) (M : Mat)
    (h : d.nt ≤ k + 1) : updateAllCols d k piv M = M := by
  funext j
  rw [updateAllCols, if_neg]
  omega

/-- C2 evaluation: the driver completes structurally on the 1x1 zero
matrix, whose single diagonal pivot is exactly zero; the matrix is left
unchanged and the pivot table holds the single self-swap record.  The
spec-modelled advisory index reports panel 0 as singular, but the
embedded driver — like the source, which returns void with the comment
TODO: return value — exposes no such value to its caller. -/
theorem getrf_ca_zero_pivot_completes :
    getrf_ca (unitDims 1) 1 zeroMat = (zeroMat, [[0]]) ∧
    specInfo (unitDims 1) zeroMat = some 0 := by
  constructor
  · rw [getrf_ca]
    have hmin : min (unitDims 1).mt (unitDims 1).nt = 1 := rfl
    rw [hmin]
    have hloop : loopFrom (unitDims 1) 1 0 1 zeroMat = (zeroMat, [[0]]) := by
      rw [loopFrom, iterK_eq_iterC, iterC, panelPhase_zero]
      show ((loopFrom (unitDims 1) 1 1 0 (updateAllCols (unitDims 1) 0 [0] zeroMat)).1,
        [0] :: (loopFrom (unitDims 1) 1 1 0 (updateAllCols (unitDims 1) 0 [0] zeroMat)).2) = _
      rw [updateAllCols_degenerate (unitDims 1) 0 [0] zeroMat (by norm_num [unitDims])]
      rfl
    show (leftPivotPhase (unitDims 1) (loopFrom (unitDims 1) 1 0 1 zeroMat).2
        (loopFrom (unitDims 1) 1 0 1 zeroMat).1,
      (loopFrom (unitDims 1) 1 0 1 zeroMat).2) = _
    rw [hloop]
    have hlp : leftPivotPhase (unitDims 1) [[0]] zeroMat = zeroMat := by
      rw [leftPivotPhase]
      have hrange : List.range (min (unitDims 1).mt (unitDims 1).nt) = [0] := rfl
      rw [hrange, List.foldl_cons, List.foldl_nil]
      show leftPivotK (unitDims 1) [0] 0 zeroMat = zeroMat
      rw [leftPivotK_zero_piv]
    rw [hlp]
  · rw [specInfo]
    have hmin : min (unitDims 1).mt (unitDims 1).nt = 1 := rfl
    rw [hmin]
    have hp : (fun k => (List.range (diagLen (unitDims 1) k)).any
        (fun s => decide (zeroMat k s (rowOff (unitDims 1) k + s) = 0))) 0 = true := by
      show ([0].any fun s => decide (zeroMat 0 s (rowOff (unitDims 1) 0 + s) = 0)) = true
      simp only [List.any_cons, List.any_nil, Bool.or_false]
      exact decide_eq_true rfl
    show List.find? _ [0] = some 0
    exact List.find?_cons_of_pos _ hp

end Slate

namespace Slate

/-! ### Trace lemmas for C4, C8 and C9 -/

theorem mem_left_of_first {α : Type} {Q : α → Prop} {b : α} (hb : ¬ Q b) :
    ∀ (P S l r : List α) (e : α), (∀ x ∈ P, ¬ Q x) → P ++ b :: S = l ++ e :: r → Q e →
      b ∈ l := by
  intro P
  induction P with
  | nil =>
      intro S l r e _ heq hQ
      cases l with
      | nil =>
          simp only [List.nil_append] at heq
          cases heq
          exact absurd hQ hb
      | cons x l' =>
          simp only [List.nil_append, List.cons_append, List.cons.injEq] at heq
          exact heq.1 ▸ List.mem_cons_self x l'
  | cons p P' ih =>
      intro S l r e hP heq hQ
      cases l with
      | nil =>
          simp only [List.cons_append, List.nil_append, List.cons.injEq] at heq
          exact absurd (heq.1 ▸ hQ) (hP p (List.mem_cons_self p P'))
      | cons x l' =>
          simp only [List.cons_append, List.cons.injEq] at heq
          exact List.mem_cons_of_mem x
            (ih S l' r e (fun y hy => hP y (List.mem_cons_of_mem p hy)) heq.2 hQ)

theorem range_split (K k : Nat) (h : k < K) :
    List.range K = List.range k ++ k :: List.range' (k+1) (K - (k+1)) := by
  induction K with
  | zero => omega
  | succ K' ih =>
      by_cases hk : k < K'
      · have harith : K' + 1 - (k+1) = (K' - (k+1)) + 1 := by omega
        have hconc : List.range' (k+1) ((K' - (k+1)) + 1) =
            List.range' (k+1) (K' - (k+1)) ++ [k + 1 + 1 * (K' - (k+1))] :=
          List.range'_concat _ _
        have hend : k + 1 + 1 * (K' - (k + 1)) = K' := by omega
        rw [List.range_succ, ih hk, harith, hconc, hend, List.append_assoc]
        rfl
      · have hkK : k = K' := by omega
        subst hkK
        rw [List.range_succ]
        have hz : k + 1 - (k+1) = 0 := by omega
        rw [hz]
        rfl

theorem iterTrace_events (mt nt la k' : Nat) :
    ∀ e ∈ iterTrace mt nt la k',
      isTaggedPivotBcast e = false ∧
      (∀ k, isSwapForB k e = true → k = k') ∧
      (∀ k0 tags sh, e = Ev.bcastMTPanel k0 tags sh → sh = is_shared la) := by
  intro e he
  rw [iterTrace, iterTraceTail] at he
  rcases List.mem_append.mp he with h | h
  · simp only [List.mem_cons, List.not_mem_nil, or_false] at h
    rcases h with rfl | rfl | rfl | rfl | rfl | rfl | rfl <;>
      refine ⟨rfl, fun k hk => ?_, fun k0 tags sh hsh => ?_⟩ <;>
      first
        | (have hk2 : (k' == k) = true := hk
           have hkk : k' = k := by simpa using hk2
           omega)
        | exact Bool.noConfusion hk
        | exact ((Ev.bcastMTPanel.inj hsh).2.2).symm
        | exact Ev.noConfusion hsh
  · rcases List.mem_append.mp h with h | h
    · rcases List.mem_append.mp h with h | h
      · simp only [List.mem_cons, List.not_mem_nil, or_false] at h
        rcases h with rfl | rfl <;>
          refine ⟨rfl, fun k hk => ?_, fun k0 tags sh hsh => ?_⟩ <;>
          first
            | (have hk2 : (k' == k) = true := hk
               have hkk : k' = k := by simpa using hk2
               omega)
            | exact Bool.noConfusion hk
            | exact ((Ev.bcastMTPanel.inj hsh).2.2).symm
            | exact Ev.noConfusion hsh
      · obtain ⟨j0, _, hm⟩ := List.mem_flatMap.mp h
        simp only [List.mem_cons, List.not_mem_nil, or_false] at hm
        rcases hm with rfl | rfl | rfl | rfl <;>
          refine ⟨rfl, fun k hk => ?_, fun k0 tags sh hsh => ?_⟩ <;>
          first
            | (have hk2 : (k' == k) = true := hk
               have hkk : k' = k := by simpa using hk2
               omega)
            | exact Bool.noConfusion hk
            | exact ((Ev.bcastMTPanel.inj hsh).2.2).symm
            | exact Ev.noConfusion hsh
    · by_cases hg : k' + 1 + la < nt
      · rw [if_pos hg] at h
        simp only [List.mem_cons, List.not_mem_nil, or_false] at h
        rcases h with rfl | rfl | rfl | rfl <;>
          refine ⟨rfl, fun k hk => ?_, fun k0 tags sh hsh => ?_⟩ <;>
          first
            | (have hk2 : (k' == k) = true := hk
               have hkk : k' = k := by simpa using hk2
               omega)
            | exact Bool.noConfusion hk
            | exact ((Ev.bcastMTPanel.inj hsh).2.2).symm
            | exact Ev.noConfusion hsh
      · rw [if_neg hg] at h
        exact absurd h (List.not_mem_nil e)

theorem finale_events (K : Nat) (e : Ev)
    (he : e ∈ (List.range K).flatMap (fun k0 =>
      if 0 < k0 then [Ev.permuteRows k0 0 (k0-1) 0] else [])) :
    isTaggedPivotBcast e = false ∧
    (∀ k, isSwapForB k e = true → k < K) ∧
    (∀ k0 tags sh, e ≠ Ev.bcastMTPanel k0 tags sh) := by
  obtain ⟨k0, hk0, hm⟩ := List.mem_flatMap.mp he
  have hk0K : k0 < K := List.mem_range.mp hk0
  by_cases h0 : 0 < k0
  · rw [if_pos h0] at hm
    simp only [List.mem_cons, List.not_mem_nil, or_false] at hm
    subst hm
    refine ⟨rfl, fun k hk => ?_, fun k1 tags sh hsh => Ev.noConfusion hsh⟩
    have hk2 : (k0 == k) = true := hk
    have hkk : k0 = k := by simpa using hk2
    omega
  · rw [if_neg h0] at hm
    exact absurd hm (List.not_mem_nil e)

end Slate

namespace Slate

/-- C4 amended: the pivot sequence of every panel k is broadcast from
the owning rank by a blocking MPI_Bcast before any row swaps applying
that sequence are issued — every permuteRows call for panel k is
preceded in the driver trace by the pivot broadcast of panel k — but the
broadcast is untagged: MPI_Bcast has no tag parameter, so no pivot
broadcast in the trace carries a tag (in particular not the panel index
k). -/
theorem getrf_ca_pivot_bcast_order (mt nt la k : Nat) :
    (∀ l e r, getrfTrace mt nt la = l ++ e :: r → isSwapForB k e = true →
      Ev.pivotBcast k none ∈ l) ∧
    (∀ e ∈ getrfTrace mt nt la, isTaggedPivotBcast e = false) := by
  constructor
  · intro l e r heq hsw
    by_cases hk : k < min mt nt
    · obtain ⟨tl, htl⟩ : ∃ tl, iterTrace mt nt la k =
          Ev.insertTiles k :: Ev.panelFactor k :: Ev.pivotBcast k none :: tl := ⟨_, rfl⟩
      have hdec : getrfTrace mt nt la =
          ((List.range k).flatMap (iterTrace mt nt la) ++
            [Ev.insertTiles k, Ev.panelFactor k])
          ++ Ev.pivotBcast k none ::
            (tl ++ ((List.range' (k+1) (min mt nt - (k+1))).flatMap (iterTrace mt nt la)
             ++ (List.range (min mt nt)).flatMap (fun k0 =>
                  if 0 < k0 then [Ev.permuteRows k0 0 (k0-1) 0] else []))) := by
        rw [getrfTrace, range_split (min mt nt) k hk, List.flatMap_append,
          List.flatMap_cons, htl]
        simp [List.append_assoc]
      apply mem_left_of_first (Q := fun x => isSwapForB k x = true)
        (fun hb => Bool.noConfusion hb) _ _ l r e ?_ (hdec.symm.trans heq) hsw
      intro x hx
      rcases List.mem_append.mp hx with h | h
      · obtain ⟨k', hk', hm⟩ := List.mem_flatMap.mp h
        intro hxs
        have hkk' := (iterTrace_events mt nt la k' x hm).2.1 k hxs
        have hk'k : k' < k := List.mem_range.mp hk'
        omega
      · simp only [List.mem_cons, List.not_mem_nil, or_false] at h
        rcases h with rfl | rfl <;> exact fun hxs => Bool.noConfusion hxs
    · have hemem : e ∈ getrfTrace mt nt la := by
        rw [heq]
        exact List.mem_append.mpr (Or.inr (List.mem_cons_self e r))
      rw [getrfTrace] at hemem
      rcases List.mem_append.mp hemem with h | h
      · obtain ⟨k', hk', hm⟩ := List.mem_flatMap.mp h
        have h1 := (iterTrace_events mt nt la k' e hm).2.1 k hsw
        have h2 := List.mem_range.mp hk'
        omega
      · have h1 := (finale_events (min mt nt) e h).2.1 k hsw
        omega
  · intro e he
    rw [getrfTrace] at he
    rcases List.mem_append.mp he with h | h
    · obtain ⟨k', _, hm⟩ := List.mem_flatMap.mp h
      exact (iterTrace_events mt nt la k' e hm).1
    · exact (finale_events (min mt nt) e h).1

/-- Witness: on a 2x2 grid with lookahead 1, the first row-swap call of
the trace (the panel permuteRows of panel 0, fourth event) is preceded
by the pivot broadcast of panel 0, and the pivot broadcast events carry
no tag. -/
theorem getrf_ca_pivot_bcast_order_witness :
    Ev.pivotBcast 0 none ∈ (getrfTrace 2 2 1).take 3 ∧
    isTaggedPivotBcast (Ev.pivotBcast 0 none) = false := by
  constructor
  · exact (getrf_ca_pivot_bcast_order 2 2 1 0).1 ((getrfTrace 2 2 1).take 3)
      (Ev.permuteRows 0 0 0 1) ((getrfTrace 2 2 1).drop 4) (by decide) (by decide)
  · exact (getrf_ca_pivot_bcast_order 2 2 1 0).2 (Ev.pivotBcast 0 none) (by decide)

/-- C9: every multi-list broadcast of the factored panel tiles to the
right-hand side in the driver trace uses shared mode exactly when the
lookahead is strictly positive (bool is_shared = lookahead > 0); with
lookahead 0 the broadcast tiles are single-use. -/
theorem getrf_ca_panel_bcast_shared_iff (mt nt la k : Nat) (tags : List Nat) (sh : Bool)
    (h : Ev.bcastMTPanel k tags sh ∈ getrfTrace mt nt la) : sh = true ↔ 0 < la := by
  rw [getrfTrace] at h
  rcases List.mem_append.mp h with h | h
  · obtain ⟨k', _, hm⟩ := List.mem_flatMap.mp h
    have hsh := (iterTrace_events mt nt la k' _ hm).2.2 k tags sh rfl
    rw [hsh, is_shared]
    simp
  · exact absurd rfl ((finale_events (min mt nt) _ h).2.2 k tags sh)

/-- Witness: on a 2x2 grid with lookahead 1 the panel broadcast of step
0 is in shared mode. -/
theorem getrf_ca_panel_bcast_shared_iff_witness : true = true ↔ 0 < 1 :=
  getrf_ca_panel_bcast_shared_iff 2 2 1 0 (panelBcastTags 0 2) true (by decide)

/-! ### C8: panel workspace lifetime -/

theorem liveWork_append (l1 l2 : List Ev) : ∀ s, liveWork (l1 ++ l2) s = liveWork l2 (liveWork l1 s) := by
  induction l1 with
  | nil => intro s; rfl
  | cons x l1' ih =>
      intro s
      cases x <;> simp only [List.cons_append, liveWork] <;> apply ih

theorem liveWork_no_ws (l : List Ev) (h : ∀ e ∈ l, isWorkspaceEvB e = false) :
    ∀ s, liveWork l s = s := by
  induction l with
  | nil => intro s; rfl
  | cons x l' ih =>
      intro s
      have hx := h x (List.mem_cons_self x l')
      have hl' : ∀ e ∈ l', isWorkspaceEvB e = false :=
        fun e he => h e (List.mem_cons_of_mem x he)
      cases x <;> first
        | exact Bool.noConfusion hx
        | (simp only [liveWork]; exact ih hl' s)

theorem iterTraceTail_no_ws (mt nt la k : Nat) :
    ∀ e ∈ iterTraceTail mt nt la k, isWorkspaceEvB e = false := by
  intro e he
  rw [iterTraceTail] at he
  rcases List.mem_append.mp he with h | h
  · rcases List.mem_append.mp h with h | h
    · simp only [List.mem_cons, List.not_mem_nil, or_false] at h
      rcases h with rfl | rfl <;> rfl
    · obtain ⟨j0, _, hm⟩ := List.mem_flatMap.mp h
      simp only [List.mem_cons, List.not_mem_nil, or_false] at hm
      rcases hm with rfl | rfl | rfl | rfl <;> rfl
  · by_cases hg : k + 1 + la < nt
    · rw [if_pos hg] at h
      simp only [List.mem_cons, List.not_mem_nil, or_false] at h
      rcases h with rfl | rfl | rfl | rfl <;> rfl
    · rw [if_neg hg] at h
      exact absurd h (List.not_mem_nil e)

theorem liveWork_iterTrace (mt nt la k : Nat) (s : List Nat) :
    liveWork (iterTrace mt nt la k) s = s := by
  rw [iterTrace, liveWork_append]
  have h7 : liveWork [Ev.insertTiles k, Ev.panelFactor k, Ev.pivotBcast k none,
      Ev.permuteRows k k k (k+1), Ev.copyDiag k, Ev.listBcast k k true,
      Ev.clearTiles k] s = s := by
    simp [liveWork, List.erase_cons_head]
  rw [h7]
  exact liveWork_no_ws _ (iterTraceTail_no_ws mt nt la k) s

theorem liveWork_main (mt nt la : Nat) :
    ∀ j, liveWork ((List.range j).flatMap (iterTrace mt nt la)) [] = [] := by
  intro j
  induction j with
  | zero => rfl
  | succ j ih =>
      rw [List.range_succ, List.flatMap_append, liveWork_append, ih]
      show liveWork ([j].flatMap (iterTrace mt nt la)) [] = []
      have hfl : [j].flatMap (iterTrace mt nt la) = iterTrace mt nt la j ++ [] := rfl
      rw [hfl, liveWork_append, liveWork_iterTrace]
      rfl

/-- C8: in every iteration k the panel workspace tiles are allocated
(Apanel.insertLocalTiles) as the first call, before the panel
factorization, and cleared (Apanel.clear) right after the factored tile
is copied back and the panel column is broadcast, still inside the same
iteration; no later call of the iteration touches the workspace, and
after any number of complete iterations the set of live workspace
panels is empty — no workspace tiles persist past their iteration. -/
theorem getrf_ca_workspace_lifetime (mt nt la k j : Nat) :
    (∃ tl, iterTrace mt nt la k =
        Ev.insertTiles k :: Ev.panelFactor k :: Ev.pivotBcast k none ::
        Ev.permuteRows k k k (k+1) :: Ev.copyDiag k :: Ev.listBcast k k true ::
        Ev.clearTiles k :: tl ∧ tl.all (fun e => !isWorkspaceEvB e) = true) ∧
    liveWork ((List.range j).flatMap (iterTrace mt nt la)) [] = [] := by
  constructor
  · refine ⟨iterTraceTail mt nt la k, rfl, ?_⟩
    apply List.all_eq_true.mpr
    intro e he
    rw [iterTraceTail_no_ws mt nt la k e he]
    rfl
  · exact liveWork_main mt nt la j

end Slate

namespace Slate

/-- Counterexample to C4 as stated: in the concrete driver trace of a
2x2 tile grid with lookahead 1, the pivot broadcast of panel 0 occurs —
untagged — and no pivot broadcast event anywhere in the trace carries
any tag at all, so in particular none is tagged with the panel index:
MPI_Bcast has no tag parameter. -/
theorem getrf_ca_pivot_bcast_untagged_cex :
    Ev.pivotBcast 0 none ∈ getrfTrace 2 2 1 ∧
    (getrfTrace 2 2 1).all (fun e => !isTaggedPivotBcast e) = true := by
  decide

end Slate
